import Mathlib

/-!
Verification development for the Named Pipe IPC server of the mcp_xpp
repository (`NamedPipeServer` in `src/ms-api-server/Services/CrossReferenceService.cs`).

The transport layer is shallowly embedded: the per-connection message framer
(`ExtractCompleteMessage` and the extract-loop of `HandleClientAsync`), the
request dispatcher (`ProcessMessageAsync` / `HandleRequestAsync`), the write
path (`SendResponseAsync`), and the lifecycle controller
(`StartAsync` / `StopAsync` / `AcceptConnectionsAsync`) as a small-step
interleaving system.  Framework pieces that are not code of this repository
(UTF-8 decode, JSON parse/serialize) are abstract function parameters; the
`D365MetadataService.Models` types (`ServiceRequest`, `ServiceResponse`,
`RequestHandlerFactory`), whose source is not part of the repository snapshot,
are modelled from the spec where so marked.
-/

namespace McpXpp

/-- Whitespace test used by `.Trim()` and `string.IsNullOrWhiteSpace`,
restricted to the ASCII whitespace characters that occur on this wire. -/
def isWS (c : Char) : Bool := c = ' ' || c = '\t' || c = '\r' || c = '\n'

/-- Dotnet `String.Trim()`: remove leading and trailing whitespace. -/
def trimStr (s : List Char) : List Char :=
  ((s.dropWhile isWS).reverse.dropWhile isWS).reverse

/-- Scan predicate of `content.IndexOf('\n')`: character is not the delimiter. -/
def notNl (c : Char) : Bool := !(c = '\n')

/-- Source `NamedPipeServer.ExtractCompleteMessage` (CrossReferenceService.cs 819-832):
if the buffer contains a newline, return the trimmed content before the first
newline together with the remaining buffer (the delimiter discarded);
otherwise `none` ("no complete message yet"). -/
def extractCompleteMessage (buf : List Char) : Option (List Char × List Char) :=
  match buf.dropWhile notNl with
  | [] => none
  | _ :: rest => some (trimStr (buf.takeWhile notNl), rest)

/-- The inner `while ((completeMessage = ExtractCompleteMessage(...)) != null)`
loop of `HandleClientAsync` (lines 794-799): extract every complete message
from the buffer, in order, returning the messages and the leftover buffer. -/
def extractAll (buf : List Char) : List (List Char) × List Char :=
  match h : buf.dropWhile notNl with
  | [] => ([], buf)
  | _ :: rest =>
    let p := extractAll rest
    (trimStr (buf.takeWhile notNl) :: p.1, p.2)
termination_by buf.length
decreasing_by
  have h2 : buf.takeWhile notNl ++ buf.dropWhile notNl = buf :=
    List.takeWhile_append_dropWhile notNl buf
  rw [h] at h2
  have h3 := congrArg List.length h2
  simp [List.length_append] at h3
  omega

/-- The text-level core of the read loop of `HandleClientAsync`: successive
already-decoded text chunks are appended to the connection buffer and all
complete messages are extracted after each append.  Returns the concatenated
message list and the final buffer.  The byte-level loop of the source,
including the per-read decode of line 791, is `framerRunBytes` below. -/
def framerRun (buf : List Char) : List (List Char) → List (List Char) × List Char
  | [] => ([], buf)
  | c :: cs =>
    let p := extractAll (buf ++ c)
    let q := framerRun p.2 cs
    (p.1 ++ q.1, q.2)

/-- Worker of `decodeUtf8`, structurally recursive on a fuel bound that the
wrapper instantiates with the input length (each decoding step consumes at
least one byte, so the fuel is never exhausted on a live input). -/
def decodeUtf8Go : Nat → List Nat → List Char
  | 0, _ => []
  | _ + 1, [] => []
  | fuel + 1, b :: rest =>
    if b < 0x80 then Char.ofNat b :: decodeUtf8Go fuel rest
    else if b < 0xC2 then Char.ofNat 0xFFFD :: decodeUtf8Go fuel rest
    else if b < 0xE0 then
      match rest with
      | [] => [Char.ofNat 0xFFFD]
      | b2 :: rest2 =>
        if 0x80 ≤ b2 ∧ b2 < 0xC0 then
          Char.ofNat ((b - 0xC0) * 64 + (b2 - 0x80)) :: decodeUtf8Go fuel rest2
        else Char.ofNat 0xFFFD :: decodeUtf8Go fuel rest
    else if b < 0xF0 then
      match rest with
      | [] => [Char.ofNat 0xFFFD]
      | b2 :: rest2 =>
        if (if b = 0xE0 then 0xA0 ≤ b2 ∧ b2 < 0xC0
            else if b = 0xED then 0x80 ≤ b2 ∧ b2 < 0xA0
            else 0x80 ≤ b2 ∧ b2 < 0xC0) then
          match rest2 with
          | [] => [Char.ofNat 0xFFFD]
          | b3 :: rest3 =>
            if 0x80 ≤ b3 ∧ b3 < 0xC0 then
              Char.ofNat ((b - 0xE0) * 4096 + (b2 - 0x80) * 64 + (b3 - 0x80)) ::
                decodeUtf8Go fuel rest3
            else Char.ofNat 0xFFFD :: decodeUtf8Go fuel rest2
        else Char.ofNat 0xFFFD :: decodeUtf8Go fuel rest
    else if b < 0xF5 then
      match rest with
      | [] => [Char.ofNat 0xFFFD]
      | b2 :: rest2 =>
        if (if b = 0xF0 then 0x90 ≤ b2 ∧ b2 < 0xC0
            else if b = 0xF4 then 0x80 ≤ b2 ∧ b2 < 0x90
            else 0x80 ≤ b2 ∧ b2 < 0xC0) then
          match rest2 with
          | [] => [Char.ofNat 0xFFFD]
          | b3 :: rest3 =>
            if 0x80 ≤ b3 ∧ b3 < 0xC0 then
              match rest3 with
              | [] => [Char.ofNat 0xFFFD]
              | b4 :: rest4 =>
                if 0x80 ≤ b4 ∧ b4 < 0xC0 then
                  Char.ofNat ((b - 0xF0) * 262144 + (b2 - 0x80) * 4096 +
                    (b3 - 0x80) * 64 + (b4 - 0x80)) :: decodeUtf8Go fuel rest4
                else Char.ofNat 0xFFFD :: decodeUtf8Go fuel rest3
            else Char.ofNat 0xFFFD :: decodeUtf8Go fuel rest2
        else Char.ofNat 0xFFFD :: decodeUtf8Go fuel rest
    else Char.ofNat 0xFFFD :: decodeUtf8Go fuel rest

/-- Model of the framework `Encoding.UTF8.GetString` with the default
replacement fallback, as called once per read chunk by `HandleClientAsync`
(line 791): standard UTF-8 decoding where each maximal invalid or truncated
byte subsequence becomes one replacement character U+FFFD, and decoding then
resumes at the next byte. -/
def decodeUtf8 (l : List Nat) : List Char := decodeUtf8Go l.length l

/-- The read loop of `HandleClientAsync` at byte level (lines 782-799): each
read returns a byte chunk, which is decoded independently by
`Encoding.UTF8.GetString` (line 791) and appended to the persistent
`StringBuilder`, after which all complete messages are extracted. -/
def framerRunBytes (buf : List Char) : List (List Nat) → List (List Char) × List Char
  | [] => ([], buf)
  | c :: cs =>
    let p := extractAll (buf ++ decodeUtf8 c)
    let q := framerRunBytes p.2 cs
    (p.1 ++ q.1, q.2)

/-- Modelled from the spec: `ServiceRequest` from `D365MetadataService.Models`
(not under src/).  Fields: `id` as opaque nullable correlation token,
`action` as string, `objectType` as optional string, `parameters` as a
mapping whose values are kept opaque as strings. -/
structure ServiceRequest where
  id : Option String
  action : String
  objectType : Option String
  parameters : List (String × String)
deriving DecidableEq, Repr

/-- Modelled from the spec: `ServiceResponse` from `D365MetadataService.Models`
(not under src/).  Fields: `id` echoing the request id, `success`, `data`
present iff success, `error` present iff failure, `processingTimeMs`.
The data payload is opaque; the wall-clock duration is a natural number of
milliseconds. -/
structure ServiceResponse where
  id : Option String
  success : Bool
  data : Option String
  error : Option String
  processingTimeMs : Nat
deriving DecidableEq, Repr

/-- Modelled from the spec: `ServiceResponse.CreateError` — an error response
(`success=false`, the message as `error`, no data, id unset until the
dispatcher stamps it). -/
def createError (msg : String) : ServiceResponse :=
  { id := none, success := false, data := none, error := some msg,
    processingTimeMs := 0 }

/-- Modelled from the spec: `ServiceResponse.CreateSuccess` — a success
response wrapping the handler's return value as `data`. -/
def createSuccess (d : String) : ServiceResponse :=
  { id := none, success := true, data := some d, error := none,
    processingTimeMs := 0 }

/-- A fault raised by a handler: either a `NotSupportedException` or any
other exception, each carrying its message. -/
inductive HandlerFault where
  | notSupported (msg : String)
  | other (msg : String)
deriving DecidableEq, Repr

/-- A registered handler (`IRequestHandler.HandleAsync`): returns a response
or raises a fault. -/
def Handler : Type := ServiceRequest → Except HandlerFault ServiceResponse

/-- Modelled from the spec: `RequestHandlerFactory` (not under src/) — the
closed, immutable, string-keyed Handler Registry built at startup. -/
def RequestHandlerFactory : Type := List (String × Handler)

/-- Registry lookup behind `HasHandler` / `GetHandler`. -/
def findHandler : RequestHandlerFactory → String → Option Handler
  | [], _ => none
  | (k, h) :: rest, a => if k = a then some h else findHandler rest a

/-- Lookup test `RequestHandlerFactory.HasHandler`. -/
def hasHandler (f : RequestHandlerFactory) (a : String) : Bool :=
  (findHandler f a).isSome

/-- Outcome of `JsonConvert.DeserializeObject<ServiceRequest>` (framework
code, abstract here): a request, a null result, or a `JsonException` with a
message.  Per the spec, a message missing the required `action` surfaces as
one of the failure outcomes. -/
inductive ParseOutcome where
  | ok (req : ServiceRequest)
  | nullReq
  | jsonFault (msg : String)
deriving Repr

/-- Test `string.IsNullOrWhiteSpace` on the extracted frame (a present string). -/
def isNullOrWhiteSpace (s : List Char) : Bool := s.all isWS

/-- Source `NamedPipeServer.HandleRequestAsync` (lines 894-920): unknown action to
an error response; handler invoked inside try/catch, `NotSupportedException`
to "Unsupported action", any other fault to "Request handling failed". -/
def handleRequest (f : RequestHandlerFactory) (req : ServiceRequest) :
    ServiceResponse :=
  match findHandler f req.action with
  | none => createError ("Unknown action: " ++ req.action)
  | some h =>
    match h req with
    | Except.ok resp => resp
    | Except.error (HandlerFault.notSupported _) =>
        createError ("Unsupported action: " ++ req.action)
    | Except.error (HandlerFault.other m) =>
        createError ("Request handling failed: " ++ m)

/-- Source `NamedPipeServer.ProcessMessageAsync` (lines 834-892): empty/whitespace
frame to "Empty message received"; JSON parse failures to error responses
with no recovered id; otherwise capture the request id, dispatch, and in all
cases overwrite the response id with the captured id and stamp the elapsed
processing time. -/
def processMessage (f : RequestHandlerFactory) (parse : List Char → ParseOutcome)
    (elapsed : Nat) (message : List Char) : ServiceResponse :=
  let st : Option String × ServiceResponse :=
    if isNullOrWhiteSpace message then
      (none, createError "Empty message received")
    else
      match parse message with
      | ParseOutcome.ok req => (req.id, handleRequest f req)
      | ParseOutcome.nullReq =>
          (none, createError "Invalid JSON request - deserialized to null")
      | ParseOutcome.jsonFault m =>
          (none, createError ("JSON parsing error: " ++ m))
  { st.2 with id := st.1, processingTimeMs := elapsed }

/-- The ambient pieces a connection worker dispatches with: the registry, the
abstract JSON parser, the abstract JSON serializer of `SendResponseAsync`,
and the measured elapsed time. -/
structure DispatchEnv where
  factory : RequestHandlerFactory
  parse : List Char → ParseOutcome
  ser : ServiceResponse → List Char
  elapsed : Nat

/-- The response the dispatcher produces for one framed message. -/
def dispatchOf (E : DispatchEnv) (m : List Char) : ServiceResponse :=
  processMessage E.factory E.parse E.elapsed m

/-- Wire image `SendResponseAsync` emits for one message: the serialized
response with the newline delimiter appended (line 969). -/
def wireOf (E : DispatchEnv) (m : List Char) : List Char :=
  E.ser (dispatchOf E m) ++ ['\n']

/-- Source `HandleClientAsync` observed at the write channel: per read chunk, append
to the buffer, extract all complete messages, and write each message's
response (serialized, delimited) in order before touching the next chunk. -/
def handleClientWrites (E : DispatchEnv) : List Char → List (List Char) → List (List Char)
  | _, [] => []
  | buf, c :: cs =>
    let p := extractAll (buf ++ c)
    p.1.map (wireOf E) ++ handleClientWrites E p.2 cs

/-- The per-message dispatch-then-send loop with a possibly failing send:
`sendOk k` tells whether the `k`-th send on this connection succeeds.  A
failed send is caught and logged inside `SendResponseAsync` (lines 975-978)
and produces no completed wire write; processing continues regardless.
Returns (responses dispatched in order, wire writes that completed). -/
def sendLoop (E : DispatchEnv) (sendOk : Nat → Bool) :
    Nat → List (List Char) → List ServiceResponse × List (List Char)
  | _, [] => ([], [])
  | k, m :: ms =>
    let p := sendLoop E sendOk (k + 1) ms
    (dispatchOf E m :: p.1, (if sendOk k then [wireOf E m] else []) ++ p.2)

/-- Source `HandleClientAsync` with the faulty-send model threaded through:
the counter `k` numbers the messages of the connection. -/
def handleClientSend (E : DispatchEnv) (sendOk : Nat → Bool) :
    Nat → List Char → List (List Char) → List ServiceResponse × List (List Char)
  | _, _, [] => ([], [])
  | k, buf, c :: cs =>
    let p := extractAll (buf ++ c)
    let s := sendLoop E sendOk k p.1
    let q := handleClientSend E sendOk (k + p.1.length) p.2 cs
    (s.1 ++ q.1, s.2 ++ q.2)

/-- Atomic steps of one acceptor/worker task, as scheduled by the runtime:
reading a chunk (the loop head, where `HandleClientAsync` observes the
cancellation token before/inside `ReadAsync`), dispatching one framed
message, and writing its response.  Dispatch and write carry no cancellation
check in the source, so cancellation can only take effect at a read. -/
inductive Instr where
  | read (c : List Char)
  | dispatchMsg (m : List Char)
  | writeMsg (m : List Char)
deriving DecidableEq, Repr

/-- Compile a connection's chunk schedule into the task's step sequence:
each read is followed by the dispatch/write pairs of exactly the messages it
completes. -/
def compileConn : List Char → List (List Char) → List Instr
  | _, [] => []
  | buf, c :: cs =>
    let p := extractAll (buf ++ c)
    Instr.read c ::
      (p.1.map (fun m => [Instr.dispatchMsg m, Instr.writeMsg m])).flatten ++
      compileConn p.2 cs

/-- One tracked task of `_activePipeHandlers`: its remaining step sequence
and the responses it has written so far. -/
structure TaskSt where
  prog : List Instr
  log : List (List Char)
deriving DecidableEq, Repr

/-- The server lifecycle state: `_isRunning`, the shared
`CancellationTokenSource` state, whether `StopAsync` has returned, and the
tracked tasks. -/
structure Sys where
  running : Bool
  cancel : Bool
  stopped : Bool
  tasks : List TaskSt
deriving DecidableEq, Repr

/-- Scheduler events: run one step of task `i`; the synchronous entry of
`StopAsync` (lines 656-662: flag check, `_isRunning=false`, token cancel);
the completion of its `Task.WhenAll` await (returns only once every tracked
task has finished). -/
inductive Ev where
  | work (i : Nat)
  | stopSignal
  | stopReturn
deriving DecidableEq, Repr

/-- The synchronous prefix of `StopAsync`: when not running, return
immediately (second component `true`) leaving the state untouched; otherwise
clear the running flag and signal the shared cancellation token, then go
await the tracked tasks. -/
def stopAsyncEntry (s : Sys) : Sys × Bool :=
  if s.running then ({ s with running := false, cancel := true }, false)
  else (s, true)

/-- One step of a task under the current cancellation flag, writing with
`W` (the wire image of a message's response).  A read with cancellation set
exits the worker, discarding its remaining steps; dispatch and write always
complete. -/
def taskStep (cancel : Bool) (W : List Char → List Char) (t : TaskSt) : TaskSt :=
  match t.prog with
  | [] => t
  | Instr.read _ :: rest =>
      if cancel then { t with prog := [] } else { t with prog := rest }
  | Instr.dispatchMsg _ :: rest => { t with prog := rest }
  | Instr.writeMsg m :: rest => { prog := rest, log := t.log ++ [W m] }

/-- Small-step transition of the whole server under one scheduler event.
`stopReturn` fires (StopAsync's await completes) only when cancellation was
signalled and every tracked task has finished. -/
def stepEv (W : List Char → List Char) (s : Sys) : Ev → Sys
  | Ev.work i =>
    match s.tasks.get? i with
    | none => s
    | some t => { s with tasks := s.tasks.set i (taskStep s.cancel W t) }
  | Ev.stopSignal => (stopAsyncEntry s).1
  | Ev.stopReturn =>
    if s.cancel && s.tasks.all (fun t => t.prog.isEmpty) then
      { s with stopped := true }
    else s

/-- Run a sequence of scheduler events. -/
def runEvs (W : List Char → List Char) (s : Sys) : List Ev → Sys
  | [] => s
  | e :: es => runEvs W (stepEv W s e) es

/-- A started server whose `i`-th acceptor task will serve the chunk
schedule `scheds[i]`. -/
def initSys (scheds : List (List (List Char))) : Sys :=
  { running := true, cancel := false, stopped := false,
    tasks := scheds.map (fun ch => { prog := compileConn [] ch, log := [] }) }

/-- Source `StartAsync` together with the task spawn of `AcceptConnectionsAsync`
(lines 623-652, 680-731): a call while running is a no-op; otherwise set the
running flag and add `maxConnections` persistent acceptor tasks to the
tracked list, each compiled from the connection schedule the environment
will feed it, and return without executing them. -/
def startAsync (maxConnections : Nat) (env : Nat → List (List Char)) (s : Sys) : Sys :=
  if s.running then s
  else
    { s with
      running := true,
      tasks := s.tasks ++ (List.range maxConnections).map
        (fun i => { prog := compileConn [] (env i), log := [] }) }

/-- The responses written by the already-executed step prefix `p`. -/
def writesOf (W : List Char → List Char) (p : List Instr) : List (List Char) :=
  p.filterMap (fun i => match i with
    | Instr.writeMsg m => some (W m)
    | _ => none)

/-- A step-sequence suffix at which a worker may be abandoned by
cancellation: empty, or starting with a read. -/
def headIsReadOrNil : List Instr → Bool
  | [] => true
  | Instr.read _ :: _ => true
  | _ => false

/-- Concrete witness material: a success handler and a faulting handler. -/
def pingHandler : Handler := fun _ => Except.ok (createSuccess "pong")

def boomHandler : Handler := fun _ => Except.error (HandlerFault.other "boom")

def reqPing : ServiceRequest :=
  { id := some "42", action := "ping", objectType := none, parameters := [] }

def reqBoom : ServiceRequest :=
  { id := some "7", action := "doWork", objectType := none, parameters := [] }

def reqFrob : ServiceRequest :=
  { id := some "9", action := "frobnicate", objectType := none, parameters := [] }

def factoryW : RequestHandlerFactory :=
  [("ping", pingHandler), ("doWork", boomHandler)]

def parseW : List Char → ParseOutcome := fun m =>
  if m = ['p'] then ParseOutcome.ok reqPing
  else if m = ['z'] then ParseOutcome.ok reqBoom
  else if m = ['f'] then ParseOutcome.ok reqFrob
  else ParseOutcome.jsonFault "bad"

def serW : ServiceResponse → List Char := fun _ => []

def envW : DispatchEnv :=
  { factory := factoryW, parse := parseW, ser := serW, elapsed := 5 }

def idleSys : Sys := { running := false, cancel := false, stopped := false, tasks := [] }

/-- Execution invariant of one tracked task: its step sequence is a suffix of
its compiled program, its log holds exactly the writes of the consumed
prefix, and if the worker already exited (program abandoned by cancellation)
the abandonment happened at a read boundary — never between a dispatch and
its write. -/
def TaskInv (W : List Char → List Char) (ch : List (List Char)) (t : TaskSt) : Prop :=
  ∃ p rest, compileConn [] ch = p ++ rest ∧ t.log = writesOf W p ∧
    (t.prog = rest ∨ (t.prog = [] ∧ headIsReadOrNil rest = true))

/-- System invariant: positional task invariants plus: once `StopAsync` has
returned, every tracked task has finished. -/
def SysInv (W : List Char → List Char) (scheds : List (List (List Char))) (s : Sys) : Prop :=
  s.tasks.length = scheds.length ∧
  (∀ i (h1 : i < s.tasks.length) (h2 : i < scheds.length),
    TaskInv W (scheds.get ⟨i, h2⟩) (s.tasks.get ⟨i, h1⟩)) ∧
  (s.stopped = true → ∀ t ∈ s.tasks, t.prog = [])

/-- Concrete witness material for the lifecycle claims. -/
def wireIdW : List Char → List Char := fun m => m

def schedsW : List (List (List Char)) := [[['a', '\n']]]

def evsW : List Ev := [Ev.work 0, Ev.work 0, Ev.stopSignal, Ev.work 0, Ev.stopReturn]

def envSchedW : Nat → List (List Char) := fun _ => []

theorem extractAll_nil : extractAll [] = ([], []) := by
  simp [extractAll]

theorem extractAll_of_dropWhile_nil {buf : List Char}
    (h : buf.dropWhile notNl = []) : extractAll buf = ([], buf) := by
  rw [extractAll]
  split
  · rfl
  · rename_i heq
    rw [h] at heq
    exact absurd heq (by simp)

theorem extractAll_of_dropWhile_cons {buf c rest} (h : buf.dropWhile notNl = c :: rest) :
    extractAll buf =
      (trimStr (buf.takeWhile notNl) :: (extractAll rest).1, (extractAll rest).2) := by
  rw [extractAll]
  split
  · rename_i heq
    rw [h] at heq
    exact absurd heq (by simp)
  · rename_i x r heq
    rw [h] at heq
    cases heq
    rfl

/-- Appending further bytes to the buffer extends the extraction result:
the messages already extractable stay extractable unchanged, and the
residual buffer plus the new bytes determine the rest. -/
theorem extractAll_append (x y : List Char) :
    extractAll (x ++ y) =
      ((extractAll x).1 ++ (extractAll ((extractAll x).2 ++ y)).1,
       (extractAll ((extractAll x).2 ++ y)).2) := by
  have main : ∀ n x y, List.length x ≤ n →
      extractAll (x ++ y) =
        ((extractAll x).1 ++ (extractAll ((extractAll x).2 ++ y)).1,
         (extractAll ((extractAll x).2 ++ y)).2) := by
    intro n
    induction n with
    | zero =>
      intro x y hx
      have hx0 : x = [] := List.length_eq_zero.mp (Nat.le_zero.mp hx)
      subst hx0
      simp [extractAll_nil]
    | succ n ih =>
      intro x y hx
      cases h : x.dropWhile notNl with
      | nil =>
        rw [extractAll_of_dropWhile_nil h]
        simp
      | cons c rest =>
        have hsplit : x.takeWhile notNl ++ x.dropWhile notNl = x :=
          List.takeWhile_append_dropWhile notNl x
        have hlen : (x.takeWhile notNl).length + (rest.length + 1) = x.length := by
          have h3 := congrArg List.length hsplit
          rw [h] at h3
          simpa [List.length_append] using h3
        have hxy_drop : (x ++ y).dropWhile notNl = c :: (rest ++ y) := by
          rw [List.dropWhile_append, h]
          simp
        have hxy_take : (x ++ y).takeWhile notNl = x.takeWhile notNl := by
          rw [List.takeWhile_append]
          have hne : (x.takeWhile notNl).length ≠ x.length := by omega
          simp [hne]
        rw [extractAll_of_dropWhile_cons hxy_drop, extractAll_of_dropWhile_cons h,
            hxy_take]
        have hrest : rest.length ≤ n := by omega
        rw [ih rest y hrest]
        simp
  exact main x.length x y (Nat.le_refl _)

/-- The residual buffer holds no delimiter. -/
theorem extractAll_residue_no_newline (buf : List Char) :
    ((extractAll buf).2).dropWhile notNl = [] := by
  have main : ∀ n buf, List.length buf ≤ n → ((extractAll buf).2).dropWhile notNl = [] := by
    intro n
    induction n with
    | zero =>
      intro buf hb
      have hb0 : buf = [] := List.length_eq_zero.mp (Nat.le_zero.mp hb)
      subst hb0
      simp [extractAll_nil]
    | succ n ih =>
      intro buf hb
      cases h : buf.dropWhile notNl with
      | nil =>
        rw [extractAll_of_dropWhile_nil h]
        exact h
      | cons c rest =>
        have hsplit : buf.takeWhile notNl ++ buf.dropWhile notNl = buf :=
          List.takeWhile_append_dropWhile notNl buf
        have hlen : (buf.takeWhile notNl).length + (rest.length + 1) = buf.length := by
          have h3 := congrArg List.length hsplit
          rw [h] at h3
          simpa [List.length_append] using h3
        rw [extractAll_of_dropWhile_cons h]
        exact ih rest (by omega)
  exact main buf.length buf (Nat.le_refl _)

/-- The chunked framer run over a drained buffer (one holding no complete
message — the invariant the read loop maintains between reads) equals
one-shot extraction of the buffer followed by all the chunks. -/
theorem framerRun_eq_extractAll (chunks : List (List Char)) :
    ∀ buf, buf.dropWhile notNl = [] →
      framerRun buf chunks = extractAll (buf ++ chunks.flatten) := by
  induction chunks with
  | nil =>
    intro buf hbuf
    simp only [framerRun, List.flatten_nil, List.append_nil]
    rw [extractAll_of_dropWhile_nil hbuf]
  | cons c cs ih =>
    intro buf hbuf
    have step : extractAll (buf ++ (c :: cs).flatten) =
        ((extractAll (buf ++ c)).1 ++
          (extractAll ((extractAll (buf ++ c)).2 ++ cs.flatten)).1,
         (extractAll ((extractAll (buf ++ c)).2 ++ cs.flatten)).2) := by
      have hassoc : buf ++ (c :: cs).flatten = (buf ++ c) ++ cs.flatten := by
        simp [List.flatten_cons]
      rw [hassoc]
      exact extractAll_append (buf ++ c) cs.flatten
    rw [step]
    simp only [framerRun]
    rw [ih (extractAll (buf ++ c)).2 (extractAll_residue_no_newline (buf ++ c))]

/-- The byte-level read loop is the text-level loop applied to the per-chunk
decodes. -/
theorem framerRunBytes_eq_framerRun :
    ∀ (bs : List (List Nat)) (buf : List Char),
      framerRunBytes buf bs = framerRun buf (bs.map decodeUtf8) := by
  intro bs
  induction bs with
  | nil => intro buf; rfl
  | cons c cs ih =>
    intro buf
    simp only [framerRunBytes, framerRun, List.map_cons]
    rw [ih]

/-- C1 counterexample: the bytes of "é\n" (C3 A9 0A) split between the two
bytes of the multi-byte character.  `HandleClientAsync` decodes each read
chunk independently, so each fragment becomes a replacement character
U+FFFD: the split run frames the message [U+FFFD, U+FFFD] while the single
unsplit read frames [é] — the program is not split-invariant over every
byte sequence and every way of splitting it. -/
theorem framer_split_invariance_counterexample :
    framerRunBytes [] [[0xC3], [0xA9, 0x0A]] ≠
      framerRunBytes [] [[0xC3, 0xA9, 0x0A]] ∧
    (framerRunBytes [] [[0xC3, 0xA9, 0x0A]]).1 = [[Char.ofNat 0xE9]] ∧
    (framerRunBytes [] [[0xC3], [0xA9, 0x0A]]).1 =
      [[Char.ofNat 0xFFFD, Char.ofNat 0xFFFD]] := by
  have hd1 : decodeUtf8 [0xC3] = [Char.ofNat 0xFFFD] := by decide
  have hd2 : decodeUtf8 [0xA9, 0x0A] = [Char.ofNat 0xFFFD, '\n'] := by decide
  have hd3 : decodeUtf8 [0xC3, 0xA9, 0x0A] = [Char.ofNat 0xE9, '\n'] := by decide
  have hA : extractAll [Char.ofNat 0xFFFD] = ([], [Char.ofNat 0xFFFD]) :=
    extractAll_of_dropWhile_nil (by decide)
  have hB : extractAll [Char.ofNat 0xFFFD, Char.ofNat 0xFFFD, '\n'] =
      ([[Char.ofNat 0xFFFD, Char.ofNat 0xFFFD]], []) := by
    rw [extractAll_of_dropWhile_cons
      (show ([Char.ofNat 0xFFFD, Char.ofNat 0xFFFD, '\n'] : List Char).dropWhile notNl =
        '\n' :: [] by decide), extractAll_nil]
    decide
  have hC : extractAll [Char.ofNat 0xE9, '\n'] = ([[Char.ofNat 0xE9]], []) := by
    rw [extractAll_of_dropWhile_cons
      (show ([Char.ofNat 0xE9, '\n'] : List Char).dropWhile notNl = '\n' :: [] by decide),
      extractAll_nil]
    decide
  have h1 : framerRunBytes [] [[0xC3], [0xA9, 0x0A]] =
      ([[Char.ofNat 0xFFFD, Char.ofNat 0xFFFD]], []) := by
    simp [framerRunBytes, hd1, hd2, hA, hB]
  have h2 : framerRunBytes [] [[0xC3, 0xA9, 0x0A]] =
      ([[Char.ofNat 0xE9]], []) := by
    simp [framerRunBytes, hd3, hC]
  refine ⟨?_, ?_, ?_⟩
  · rw [h1, h2]
    decide
  · rw [h2]
  · rw [h1]

/-- C1 (amended): Message Framer split-invariance holds for every byte
sequence and every way of splitting it across reads **at UTF-8 character
boundaries** — whenever the independent per-read decodes of line 791 jointly
agree with decoding the unsplit bytes.  Then the ordered message list equals
that of a single unsplit read, the trailing bytes after the last delimiter
remain in the buffer as the same residue, and the residue holds no
delimiter.  (For a split inside a multi-byte character the per-read decode
substitutes U+FFFD and invariance can fail, as the counterexample shows.) -/
theorem framer_split_invariance_amended (bchunks : List (List Nat))
    (hsplit : decodeUtf8 bchunks.flatten = (bchunks.map decodeUtf8).flatten) :
    framerRunBytes [] bchunks = extractAll (decodeUtf8 bchunks.flatten) ∧
    ((framerRunBytes [] bchunks).2).dropWhile notNl = [] := by
  have h := framerRun_eq_extractAll (bchunks.map decodeUtf8) [] (by simp)
  simp only [List.nil_append] at h
  rw [framerRunBytes_eq_framerRun bchunks [], h, ← hsplit]
  exact ⟨rfl, extractAll_residue_no_newline (decodeUtf8 bchunks.flatten)⟩

/-- Witness for C1 (amended): the same bytes "é\n" split at the character
boundary, between the é and the newline. -/
theorem framer_split_invariance_amended_witness :
    framerRunBytes [] [[0xC3, 0xA9], [0x0A]] =
      extractAll (decodeUtf8 ([[0xC3, 0xA9], [0x0A]] : List (List Nat)).flatten) ∧
    ((framerRunBytes [] [[0xC3, 0xA9], [0x0A]]).2).dropWhile notNl = [] :=
  framer_split_invariance_amended [[0xC3, 0xA9], [0x0A]] (by decide)

/-- The write stream of the read loop is the per-message wire image of the
framer's output, chunk by chunk. -/
theorem handleClientWrites_eq (E : DispatchEnv) :
    ∀ chunks buf, handleClientWrites E buf chunks =
      ((framerRun buf chunks).1).map (wireOf E) := by
  intro chunks
  induction chunks with
  | nil => intro buf; simp [handleClientWrites, framerRun]
  | cons c cs ih =>
    intro buf
    simp only [handleClientWrites, framerRun, List.map_append]
    rw [ih]

/-- C2: Id-overwrite invariant.  For every framed message that parses into a
valid Request, the Response produced by dispatch carries the request's id —
whatever response (with whatever id) the registry and handler produced, the
dispatcher overwrites the response id with the captured request id. -/
theorem dispatch_id_overwrite (f : RequestHandlerFactory)
    (parse : List Char → ParseOutcome) (elapsed : Nat) (message : List Char)
    (req : ServiceRequest)
    (hws : isNullOrWhiteSpace message = false)
    (hparse : parse message = ParseOutcome.ok req) :
    (processMessage f parse elapsed message).id = req.id := by
  simp [processMessage, hws, hparse]

/-- Witness for C2: the registered handler returns a response with no id,
yet the response of dispatch carries the request's id `"42"`. -/
theorem dispatch_id_overwrite_witness :
    (pingHandler reqPing = Except.ok (createSuccess "pong") ∧
      (createSuccess "pong").id = none) ∧
    (processMessage factoryW parseW 5 ['p']).id = reqPing.id :=
  ⟨⟨rfl, rfl⟩,
    dispatch_id_overwrite factoryW parseW 5 ['p'] reqPing (by decide) (by rfl)⟩

/-- C3 counterexample: a handler that raises a fault with message "boom"
yields a response whose error field is NOT the fault's message: the
dispatcher prefixes it ("Request handling failed: boom"). -/
theorem handler_fault_message_counterexample :
    boomHandler reqBoom = Except.error (HandlerFault.other "boom") ∧
    (processMessage factoryW parseW 0 ['z']).success = false ∧
    (processMessage factoryW parseW 0 ['z']).error =
      some "Request handling failed: boom" ∧
    (processMessage factoryW parseW 0 ['z']).error ≠ some "boom" := by
  refine ⟨rfl, ?_, ?_, ?_⟩ <;> decide

/-- C3 (amended): for every request whose handler raises, dispatch catches
the fault and returns a Response with `success=false` whose error embeds the
fault's message as "Request handling failed: <message>" (for a
`NotSupportedException`, "Unsupported action: <action>"); the fault never
propagates — dispatch always returns this well-formed Response. -/
theorem handler_fault_containment (f : RequestHandlerFactory)
    (parse : List Char → ParseOutcome) (elapsed : Nat) (message : List Char)
    (req : ServiceRequest) (h : Handler) (fault : HandlerFault)
    (hws : isNullOrWhiteSpace message = false)
    (hparse : parse message = ParseOutcome.ok req)
    (hfind : findHandler f req.action = some h)
    (hrun : h req = Except.error fault) :
    processMessage f parse elapsed message =
      { id := req.id, success := false, data := none,
        error := some (match fault with
          | HandlerFault.notSupported _ => "Unsupported action: " ++ req.action
          | HandlerFault.other m => "Request handling failed: " ++ m),
        processingTimeMs := elapsed } := by
  cases fault <;>
    simp [processMessage, hws, hparse, handleRequest, hfind, hrun, createError]

/-- Witness for C3 (amended) at the "boom" handler. -/
theorem handler_fault_containment_witness :
    processMessage factoryW parseW 0 ['z'] =
      { id := reqBoom.id, success := false, data := none,
        error := some ("Request handling failed: " ++ "boom"),
        processingTimeMs := 0 } :=
  handler_fault_containment factoryW parseW 0 ['z'] reqBoom boomHandler
    (HandlerFault.other "boom") (by decide) (by rfl) (by rfl) (by rfl)

/-- C4: Unknown-action response.  For every successfully parsed Request
whose action has no registered handler, dispatch returns (it is a total
function — never throws) a Response with `success=false`, error exactly
"Unknown action: <action>", and id copied from the request. -/
theorem unknown_action_response (f : RequestHandlerFactory)
    (parse : List Char → ParseOutcome) (elapsed : Nat) (message : List Char)
    (req : ServiceRequest)
    (hws : isNullOrWhiteSpace message = false)
    (hparse : parse message = ParseOutcome.ok req)
    (hno : hasHandler f req.action = false) :
    processMessage f parse elapsed message =
      { id := req.id, success := false, data := none,
        error := some ("Unknown action: " ++ req.action),
        processingTimeMs := elapsed } := by
  have hfind : findHandler f req.action = none := by
    cases hf : findHandler f req.action with
    | none => rfl
    | some h => simp [hasHandler, hf] at hno
  simp [processMessage, hws, hparse, handleRequest, hfind, createError]

/-- Witness for C4: action "frobnicate" is unregistered. -/
theorem unknown_action_response_witness :
    processMessage factoryW parseW 5 ['f'] =
      { id := reqFrob.id, success := false, data := none,
        error := some ("Unknown action: " ++ reqFrob.action),
        processingTimeMs := 5 } :=
  unknown_action_response factoryW parseW 5 ['f'] reqFrob
    (by decide) (by rfl) (by decide)

/-- C5: Parse-failure response.  For every framed message that fails to
parse as a Request (whitespace-only frame, deserialization to null, or a
JSON fault — per the spec a missing required `action` surfaces as one of
these), dispatch produces a Response with `success=false`, an error
describing the parse failure, and no id. -/
theorem parse_failure_response (f : RequestHandlerFactory)
    (parse : List Char → ParseOutcome) (elapsed : Nat) (message : List Char)
    (hfail : isNullOrWhiteSpace message = true ∨
      ∀ req, parse message ≠ ParseOutcome.ok req) :
    (processMessage f parse elapsed message).success = false ∧
    (processMessage f parse elapsed message).id = none ∧
    (processMessage f parse elapsed message).data = none ∧
    ((processMessage f parse elapsed message).error =
        some "Empty message received" ∨
     (processMessage f parse elapsed message).error =
        some "Invalid JSON request - deserialized to null" ∨
     ∃ m, (processMessage f parse elapsed message).error =
        some ("JSON parsing error: " ++ m)) := by
  by_cases hws : isNullOrWhiteSpace message = true
  · simp [processMessage, hws, createError]
  · have hws' : isNullOrWhiteSpace message = false := by
      simpa using hws
    rcases hfail with h | h
    · exact absurd h hws
    · cases hp : parse message with
      | ok req => exact absurd hp (h req)
      | nullReq => simp [processMessage, hws', hp, createError]
      | jsonFault m =>
        refine ⟨?_, ?_, ?_, Or.inr (Or.inr ⟨m, ?_⟩)⟩ <;>
          simp [processMessage, hws', hp, createError]

/-- Witness for C5 at a frame that is not valid JSON. -/
theorem parse_failure_response_witness :
    (processMessage factoryW parseW 5 ['q']).success = false ∧
    (processMessage factoryW parseW 5 ['q']).id = none ∧
    (processMessage factoryW parseW 5 ['q']).data = none ∧
    ((processMessage factoryW parseW 5 ['q']).error =
        some "Empty message received" ∨
     (processMessage factoryW parseW 5 ['q']).error =
        some "Invalid JSON request - deserialized to null" ∨
     ∃ m, (processMessage factoryW parseW 5 ['q']).error =
        some ("JSON parsing error: " ++ m)) :=
  parse_failure_response factoryW parseW 5 ['q']
    (Or.inr (fun req h => by simp [parseW] at h))

/-- C6: Per-connection serial ordering.  For any split of the connection's
bytes into reads, the sequence of wire writes the worker emits equals the
in-order dispatch of the framed requests: each response serialized, the
delimiter appended, emitted in exactly the order the messages were framed. -/
theorem connection_serial_ordering (E : DispatchEnv) (chunks : List (List Char)) :
    handleClientWrites E [] chunks =
      ((extractAll chunks.flatten).1).map (wireOf E) := by
  rw [handleClientWrites_eq, framerRun_eq_extractAll chunks [] (by simp)]
  simp

/-- C9: Empty-frame handling.  The worker emits exactly one wire write per
framed message — empty frames are not filtered out — and a frame that is
zero-length after trimming (whitespace-only) is treated by the dispatcher as
a parse failure: `success=false`, error "Empty message received", no id. -/
theorem empty_frame_response (E : DispatchEnv) :
    (∀ chunks, (handleClientWrites E [] chunks).length =
      ((extractAll chunks.flatten).1).length) ∧
    (∀ m, isNullOrWhiteSpace m = true →
      processMessage E.factory E.parse E.elapsed m =
        { id := none, success := false, data := none,
          error := some "Empty message received",
          processingTimeMs := E.elapsed }) := by
  constructor
  · intro chunks
    rw [handleClientWrites_eq, framerRun_eq_extractAll chunks [] (by simp)]
    simp
  · intro m hm
    simp [processMessage, hm, createError]

/-- Witness for C9: a stray newline chunk frames one empty message and gets
one error response. -/
theorem empty_frame_response_witness :
    (handleClientWrites envW [] [['\n']]).length =
      ((extractAll [['\n']].flatten).1).length ∧
    processMessage envW.factory envW.parse envW.elapsed [] =
      { id := none, success := false, data := none,
        error := some "Empty message received",
        processingTimeMs := envW.elapsed } :=
  ⟨(empty_frame_response envW).1 [['\n']],
   (empty_frame_response envW).2 [] (by decide)⟩

/-- The dispatch-then-send loop: dispatches every message in order and
completes exactly the sends `sendOk` allows. -/
theorem sendLoop_spec (E : DispatchEnv) (sendOk : Nat → Bool) :
    ∀ ms k, sendLoop E sendOk k ms =
      (ms.map (dispatchOf E),
       ((ms.enumFrom k).filter (fun p => sendOk p.1)).map
         (fun p => wireOf E p.2)) := by
  intro ms
  induction ms with
  | nil => intro k; rfl
  | cons m ms ih =>
    intro k
    simp only [sendLoop, ih (k + 1), List.map_cons, List.enumFrom_cons,
      List.filter_cons]
    by_cases h : sendOk k <;> simp [h]

/-- The faulty-send worker: its dispatched responses and completed writes,
chunk by chunk, in terms of the framer output. -/
theorem handleClientSend_spec (E : DispatchEnv) (sendOk : Nat → Bool) :
    ∀ chunks buf k, handleClientSend E sendOk k buf chunks =
      (((framerRun buf chunks).1).map (dispatchOf E),
       ((((framerRun buf chunks).1).enumFrom k).filter
          (fun p => sendOk p.1)).map (fun p => wireOf E p.2)) := by
  intro chunks
  induction chunks with
  | nil => intro buf k; simp [handleClientSend, framerRun]
  | cons c cs ih =>
    intro buf k
    simp only [handleClientSend, framerRun]
    rw [sendLoop_spec, ih]
    simp [List.enumFrom_append, List.filter_append, List.map_append]

/-- C10: Response-write fault containment.  Whatever subset of sends fault
(each fault caught inside the send step), the worker's dispatch sequence is
exactly the in-order dispatch of all framed messages — a failed response
write terminates neither the connection nor the processing of subsequent
messages — and the completed wire writes are precisely the responses at the
non-faulting send indices, in order. -/
theorem send_fault_containment (E : DispatchEnv) (sendOk : Nat → Bool)
    (chunks : List (List Char)) :
    (handleClientSend E sendOk 0 [] chunks).1 =
      ((extractAll chunks.flatten).1).map (dispatchOf E) ∧
    (handleClientSend E sendOk 0 [] chunks).2 =
      ((((extractAll chunks.flatten).1).enum).filter
        (fun p => sendOk p.1)).map (fun p => wireOf E p.2) := by
  rw [handleClientSend_spec, framerRun_eq_extractAll chunks [] (by simp)]
  simp [List.enum]

theorem writesOf_append (W : List Char → List Char) (p q : List Instr) :
    writesOf W (p ++ q) = writesOf W p ++ writesOf W q :=
  List.filterMap_append p q _

/-- The writes of a compiled dispatch/write run are the wire images of its
messages, in order. -/
theorem writesOf_emits (W : List Char → List Char) (l : List (List Char)) :
    writesOf W ((l.map (fun m => [Instr.dispatchMsg m, Instr.writeMsg m])).flatten) =
      l.map W := by
  induction l with
  | nil => rfl
  | cons m ms ih =>
    simp only [List.map_cons, List.flatten_cons]
    rw [writesOf_append, ih]
    rfl

/-- A compiled dispatch/write run contains no read step. -/
theorem emits_no_read (l : List (List Char)) (x : Instr)
    (hx : x ∈ (l.map (fun m => [Instr.dispatchMsg m, Instr.writeMsg m])).flatten)
    (c : List Char) : x ≠ Instr.read c := by
  intro hc
  subst hc
  rcases List.mem_flatten.mp hx with ⟨l', hl', hxl⟩
  rcases List.mem_map.mp hl' with ⟨m, _, rfl⟩
  simp at hxl

/-- One task step preserves the task invariant: progress consumes one
compiled step (recording a write if it was one), and cancellation abandons
the program only at a read. -/
theorem taskStep_inv (cancel : Bool) (W : List Char → List Char)
    (ch : List (List Char)) (t : TaskSt) (h : TaskInv W ch t) :
    TaskInv W ch (taskStep cancel W t) := by
  obtain ⟨p, rest, hsplit, hlog, hpr⟩ := h
  rcases hpr with hpr | ⟨hpr, hhead⟩
  · cases hrest : rest with
    | nil =>
      subst hrest
      have ht : taskStep cancel W t = t := by simp [taskStep, hpr]
      rw [ht]
      exact ⟨p, [], hsplit, hlog, Or.inl hpr⟩
    | cons i0 r' =>
      subst hrest
      cases i0 with
      | read c =>
        by_cases hc : cancel
        · have ht : taskStep cancel W t = { t with prog := [] } := by
            simp [taskStep, hpr, hc]
          rw [ht]
          exact ⟨p, Instr.read c :: r', hsplit, hlog, Or.inr ⟨rfl, rfl⟩⟩
        · have ht : taskStep cancel W t = { t with prog := r' } := by
            simp [taskStep, hpr, hc]
          rw [ht]
          refine ⟨p ++ [Instr.read c], r', ?_, ?_, Or.inl rfl⟩
          · rw [hsplit, List.append_cons]
          · simp only [writesOf_append]
            rw [hlog]
            simp [writesOf]
      | dispatchMsg m =>
        have ht : taskStep cancel W t = { t with prog := r' } := by
          simp [taskStep, hpr]
        rw [ht]
        refine ⟨p ++ [Instr.dispatchMsg m], r', ?_, ?_, Or.inl rfl⟩
        · rw [hsplit, List.append_cons]
        · simp only [writesOf_append]
          rw [hlog]
          simp [writesOf]
      | writeMsg m =>
        have ht : taskStep cancel W t = { prog := r', log := t.log ++ [W m] } := by
          simp [taskStep, hpr]
        rw [ht]
        refine ⟨p ++ [Instr.writeMsg m], r', ?_, ?_, Or.inl rfl⟩
        · rw [hsplit, List.append_cons]
        · simp only [writesOf_append]
          rw [hlog]
          rfl
  · have ht : taskStep cancel W t = t := by simp [taskStep, hpr]
    rw [ht]
    exact ⟨p, rest, hsplit, hlog, Or.inr ⟨hpr, hhead⟩⟩

/-- Every scheduler event preserves the system invariant. -/
theorem stepEv_inv (W : List Char → List Char) (scheds : List (List (List Char)))
    (s : Sys) (e : Ev) (h : SysInv W scheds s) : SysInv W scheds (stepEv W s e) := by
  obtain ⟨hlen, htask, hstop⟩ := h
  cases e with
  | work i =>
    simp only [stepEv]
    cases hg : s.tasks.get? i with
    | none => exact ⟨hlen, htask, hstop⟩
    | some t =>
      obtain ⟨hi, hti⟩ := List.get?_eq_some.mp hg
      refine ⟨by simp [hlen], ?_, ?_⟩
      · intro j h1 h2
        have h1' : j < s.tasks.length := by simpa using h1
        by_cases hij : j = i
        · subst hij
          have hget : (s.tasks.set j (taskStep s.cancel W t)).get ⟨j, h1⟩ =
              taskStep s.cancel W t := by
            simp [List.get_eq_getElem]
          rw [hget]
          exact taskStep_inv s.cancel W _ t (hti ▸ htask j hi h2)
        · have hne : i ≠ j := fun hh => hij hh.symm
          have hget : (s.tasks.set i (taskStep s.cancel W t)).get ⟨j, h1⟩ =
              s.tasks.get ⟨j, h1'⟩ := by
            simp [List.get_eq_getElem, List.getElem_set_ne hne]
          rw [hget]
          exact htask j h1' h2
      · intro hst
        have hall := hstop (by simpa using hst)
        intro t' ht'
        rcases List.mem_or_eq_of_mem_set ht' with hmem | hteq
        · exact hall t' hmem
        · have htmem : t ∈ s.tasks := by
            rw [← hti]
            exact List.get_mem s.tasks i hi
          have hpt : t.prog = [] := hall t htmem
          rw [hteq]
          simp [taskStep, hpt]
  | stopSignal =>
    simp only [stepEv, stopAsyncEntry]
    by_cases hr : s.running
    · simp only [hr, if_true]
      exact ⟨hlen, htask, hstop⟩
    · simp only [hr, if_false]
      exact ⟨hlen, htask, hstop⟩
  | stopReturn =>
    simp only [stepEv]
    by_cases hg : (s.cancel && s.tasks.all fun t => t.prog.isEmpty) = true
    · simp only [hg, if_true]
      refine ⟨hlen, htask, ?_⟩
      intro _ t' ht'
      have hg2 : s.cancel = true ∧ s.tasks.all (fun t => t.prog.isEmpty) = true := by
        simpa using hg
      exact List.isEmpty_iff.mp (List.all_eq_true.mp hg2.2 t' ht')
    · simp only [if_neg hg]
      exact ⟨hlen, htask, hstop⟩

/-- The invariant holds of a freshly started server. -/
theorem initSys_inv (W : List Char → List Char) (scheds : List (List (List Char))) :
    SysInv W scheds (initSys scheds) := by
  refine ⟨by simp [initSys], ?_, ?_⟩
  · intro i h1 h2
    have hget : (initSys scheds).tasks.get ⟨i, h1⟩ =
        { prog := compileConn [] (scheds.get ⟨i, h2⟩), log := [] } := by
      simp [initSys, List.get_eq_getElem]
    rw [hget]
    exact ⟨[], compileConn [] (scheds.get ⟨i, h2⟩), by simp, rfl, Or.inl rfl⟩
  · intro hst
    simp [initSys] at hst

/-- The invariant holds after any event sequence. -/
theorem runEvs_inv (W : List Char → List Char) (scheds : List (List (List Char))) :
    ∀ evs s, SysInv W scheds s → SysInv W scheds (runEvs W s evs) := by
  intro evs
  induction evs with
  | nil => intro s h; exact h
  | cons e es ih =>
    intro s h
    exact ih _ (stepEv_inv W scheds s e h)

/-- Cutting a compiled program at a read boundary (or at its end) yields the
writes of a whole number of chunks: the responses to exactly the messages
framed from the first `k` chunks. -/
theorem compileConn_cut (W : List Char → List Char) :
    ∀ ch buf p rest, compileConn buf ch = p ++ rest →
      headIsReadOrNil rest = true →
      ∃ k, k ≤ ch.length ∧
        writesOf W p = ((framerRun buf (ch.take k)).1).map W := by
  intro ch
  induction ch with
  | nil =>
    intro buf p rest hsplit _
    simp only [compileConn] at hsplit
    obtain ⟨rfl, rfl⟩ := List.append_eq_nil.mp hsplit.symm
    exact ⟨0, by simp, by simp [writesOf, framerRun]⟩
  | cons c cs ih =>
    intro buf p rest hsplit hhead
    simp only [compileConn] at hsplit
    cases p with
    | nil =>
      exact ⟨0, by simp, by simp [writesOf, framerRun]⟩
    | cons i1 p' =>
      rw [List.cons_append] at hsplit
      injection hsplit with h1 h2
      subst h1
      rcases List.append_eq_append_iff.mp h2 with ⟨a, hc1, hc2⟩ | ⟨c', hc1, hc2⟩
      · -- the cut lands beyond this chunk's dispatch/write run
        obtain ⟨k, hk, hw⟩ := ih (extractAll (buf ++ c)).2 a rest hc2 hhead
        refine ⟨k + 1, by simpa using Nat.succ_le_succ hk, ?_⟩
        subst hc1
        simp only [List.take_succ_cons, framerRun, List.map_append]
        have hr : writesOf W (Instr.read c ::
            (((extractAll (buf ++ c)).1.map
              (fun m => [Instr.dispatchMsg m, Instr.writeMsg m])).flatten ++ a)) =
            writesOf W (((extractAll (buf ++ c)).1.map
              (fun m => [Instr.dispatchMsg m, Instr.writeMsg m])).flatten) ++
            writesOf W a := by
          simp [writesOf]
        rw [hr, writesOf_emits, hw]
      · cases c' with
        | nil =>
          -- the cut is exactly at the end of this chunk's run
          simp only [List.append_nil] at hc1
          refine ⟨1, by simp, ?_⟩
          rw [← hc1]
          simp only [List.take_succ_cons, List.take_zero, framerRun]
          have hr : writesOf W (Instr.read c ::
              ((extractAll (buf ++ c)).1.map
                (fun m => [Instr.dispatchMsg m, Instr.writeMsg m])).flatten) =
              writesOf W (((extractAll (buf ++ c)).1.map
                (fun m => [Instr.dispatchMsg m, Instr.writeMsg m])).flatten) := by
            simp [writesOf]
          rw [hr, writesOf_emits]
          simp
        | cons x c'' =>
          -- impossible: the cut would land inside a dispatch/write run
          exfalso
          rw [List.cons_append] at hc2
          rw [hc2] at hhead
          cases x with
          | read c2 =>
            have hxmem : Instr.read c2 ∈
                ((extractAll (buf ++ c)).1.map
                  (fun m => [Instr.dispatchMsg m, Instr.writeMsg m])).flatten := by
              rw [hc1]
              exact List.mem_append.mpr (Or.inr (List.mem_cons_self _ _))
            exact emits_no_read _ _ hxmem c2 rfl
          | dispatchMsg m => simp [headIsReadOrNil] at hhead
          | writeMsg m => simp [headIsReadOrNil] at hhead

/-- Concrete framer evaluation for the lifecycle witness. -/
theorem extractAll_aN : extractAll ['a', '\n'] = ([['a']], []) := by
  rw [extractAll_of_dropWhile_cons
    (show (['a', '\n'] : List Char).dropWhile notNl = '\n' :: [] by decide),
    extractAll_nil]
  decide

/-- Concrete compiled program for the lifecycle witness. -/
theorem compileConn_schedW :
    compileConn [] [['a', '\n']] =
      [Instr.read ['a', '\n'], Instr.dispatchMsg ['a'], Instr.writeMsg ['a']] := by
  simp [compileConn, extractAll_aN]

/-- C7: Stop-drain guarantee.  The entry of `stopAsync` on a non-running
server returns immediately with the state untouched; otherwise, in every
interleaved execution in which `StopAsync` has returned (which requires the
cancellation signal and the completion await), every tracked acceptor/worker
task has finished — none is still reading, dispatching or writing — and each
task's write log is the complete, in-order response sequence for a whole
number of the chunks it read: a dispatch that was in progress when
cancellation arrived completed and its response was written, since workers
can only be abandoned at a read boundary. -/
theorem stop_drain (W : List Char → List Char) (scheds : List (List (List Char)))
    (evs : List Ev)
    (hstop : (runEvs W (initSys scheds) evs).stopped = true) :
    (∀ s : Sys, s.running = false → stopAsyncEntry s = (s, true)) ∧
    (∀ t ∈ (runEvs W (initSys scheds) evs).tasks, t.prog = []) ∧
    (runEvs W (initSys scheds) evs).tasks.length = scheds.length ∧
    (∀ i (h1 : i < (runEvs W (initSys scheds) evs).tasks.length)
        (h2 : i < scheds.length),
      ∃ k, k ≤ (scheds.get ⟨i, h2⟩).length ∧
        ((runEvs W (initSys scheds) evs).tasks.get ⟨i, h1⟩).log =
          ((framerRun [] ((scheds.get ⟨i, h2⟩).take k)).1).map W) := by
  obtain ⟨hlen, htask, hstop'⟩ :=
    runEvs_inv W scheds evs (initSys scheds) (initSys_inv W scheds)
  have hprogs := hstop' hstop
  refine ⟨?_, hprogs, hlen, ?_⟩
  · intro s hs
    simp [stopAsyncEntry, hs]
  · intro i h1 h2
    obtain ⟨p, rest, hsplit, hlog, hpr⟩ := htask i h1 h2
    have hpe : ((runEvs W (initSys scheds) evs).tasks.get ⟨i, h1⟩).prog = [] :=
      hprogs _ (List.get_mem _ i h1)
    have hhead : headIsReadOrNil rest = true := by
      rcases hpr with hpr | ⟨_, hh⟩
      · rw [hpr] at hpe
        rw [hpe]
        rfl
      · exact hh
    obtain ⟨k, hk, hw⟩ := compileConn_cut W (scheds.get ⟨i, h2⟩) [] p rest hsplit hhead
    exact ⟨k, hk, by rw [hlog, hw]⟩

/-- Witness for C7: one acceptor serving one connection with one message;
cancellation is signalled between the dispatch and the write, the write
still completes, and stop returns afterwards. -/
theorem stop_drain_witness :
    (∀ s : Sys, s.running = false → stopAsyncEntry s = (s, true)) ∧
    (∀ t ∈ (runEvs wireIdW (initSys schedsW) evsW).tasks, t.prog = []) ∧
    (runEvs wireIdW (initSys schedsW) evsW).tasks.length = schedsW.length ∧
    (∀ i (h1 : i < (runEvs wireIdW (initSys schedsW) evsW).tasks.length)
        (h2 : i < schedsW.length),
      ∃ k, k ≤ (schedsW.get ⟨i, h2⟩).length ∧
        ((runEvs wireIdW (initSys schedsW) evsW).tasks.get ⟨i, h1⟩).log =
          ((framerRun [] ((schedsW.get ⟨i, h2⟩).take k)).1).map wireIdW) :=
  stop_drain wireIdW schedsW evsW (by
    simp [runEvs, evsW, initSys, schedsW, stepEv, taskStep, stopAsyncEntry,
      compileConn_schedW])

/-- C8: Start idempotence.  From a fresh (not running) server, one `start`
spawns exactly `N` acceptor tasks, sets the running flag, and returns with
the tasks merely launched (their programs untouched, logs empty); a second
`start` while running — whatever connections the environment would feed it —
changes nothing: no second set of acceptors is spawned. -/
theorem start_idempotent (N : Nat) (env1 env2 : Nat → List (List Char)) (s : Sys)
    (hrun : s.running = false) (htasks : s.tasks = []) :
    startAsync N env2 (startAsync N env1 s) = startAsync N env1 s ∧
    (startAsync N env1 s).tasks.length = N ∧
    (startAsync N env1 s).running = true ∧
    (startAsync N env1 s).tasks =
      (List.range N).map (fun i => { prog := compileConn [] (env1 i), log := [] }) := by
  have h1 : startAsync N env1 s =
      { s with
        running := true,
        tasks := (List.range N).map
          (fun i => { prog := compileConn [] (env1 i), log := [] }) } := by
    simp [startAsync, hrun, htasks]
  refine ⟨?_, ?_, ?_, ?_⟩
  · rw [h1]
    simp [startAsync]
  · rw [h1]
    simp
  · rw [h1]
  · rw [h1]

/-- Witness for C8 at `N = 3` acceptors from the idle server. -/
theorem start_idempotent_witness :
    startAsync 3 envSchedW (startAsync 3 envSchedW idleSys) =
      startAsync 3 envSchedW idleSys ∧
    (startAsync 3 envSchedW idleSys).tasks.length = 3 ∧
    (startAsync 3 envSchedW idleSys).running = true ∧
    (startAsync 3 envSchedW idleSys).tasks =
      (List.range 3).map (fun i => { prog := compileConn [] (envSchedW i), log := [] }) :=
  start_idempotent 3 envSchedW envSchedW idleSys rfl rfl

end McpXpp
